import Mathlib

/-!
# Verification of the mockup-generation backend (src/backend/main.py)

A shallow embedding of the pure core of the backend: the company-name
shortener, the greedy word-wrap, the text-block line-height computation,
the image fit engine, the per-variable value resolution of the template
renderer, the batch-job row loop, and the job-status progress read.

Modelling conventions:
* Python strings are `String` / `List Char`.  `str.strip()` / `str.split()`
  are modelled over the six ASCII whitespace characters Python treats as
  whitespace for ASCII input (the repository feeds them CSV text).
* Python dicts holding row data are association lists `List (String × String)`
  with first-match lookup; `dict.get(k, "")` is `rowGet`.
* Pillow's `draw.textbbox` width/height are opaque parameters
  (`widthF`, `heightF : List Char → Nat`): the wrap/line-height claims are
  proved for every metric function.
* Python `int` arithmetic is `Nat`/`Int`; Python float arithmetic (`/` on
  ints, `* 100`) is modelled exactly as IEEE-754 double semantics: a
  correctly rounded (round-to-nearest, ties-to-even, 53-bit significand)
  value, implemented over exact `Nat` fractions (`Q2`, `roundP`).  The
  values in question are far from overflow/subnormal range, where that
  model coincides with IEEE-754.
* `render + upload` for one row (`apply_variables` + `upload_to_cloudinary`,
  which touch disk/network) is an opaque `ru : Nat → Row → Except String String`:
  `.ok url` models a successful render+upload, `.error e` models a raised
  exception whose `str(e)` is `e`.
-/

/-! ## Python-style whitespace splitting (`str.split()`, `str.strip()`) -/

/-- The ASCII characters `str.split()` / `str.strip()` treat as whitespace. -/
def isSpaceChar (c : Char) : Bool :=
  c == ' ' || c == '\t' || c == '\n' || c == '\r' || c == '\x0b' || c == '\x0c'

/-- Accumulator worker for `splitWS`; `acc` holds the current word reversed. -/
def splitWSAux : List Char → List Char → List (List Char)
  | [], acc => if acc.isEmpty then [] else [acc.reverse]
  | c :: cs, acc =>
    if isSpaceChar c then
      if acc.isEmpty then splitWSAux cs [] else acc.reverse :: splitWSAux cs []
    else splitWSAux cs (c :: acc)

/-- Python `str.split()` with no argument: split on whitespace runs,
dropping empty words. -/
def splitWS (l : List Char) : List (List Char) := splitWSAux l []

/-- Drop leading and trailing whitespace (Python `str.strip()`). -/
def trimWS (l : List Char) : List Char :=
  ((l.dropWhile isSpaceChar).reverse.dropWhile isSpaceChar).reverse

/-- Python `" ".join(ws)`. -/
def joinSp : List (List Char) → List Char
  | [] => []
  | [w] => w
  | w :: ws => w ++ ' ' :: joinSp ws

/-- A word as produced by `splitWS`: non-empty, no whitespace. -/
def IsWordChars (w : List Char) : Prop :=
  w ≠ [] ∧ ∀ c ∈ w, isSpaceChar c = false

theorem joinSp_cons_of_ne {l : List (List Char)} (x : List Char) (h : l ≠ []) :
    joinSp (x :: l) = x ++ ' ' :: joinSp l := by
  cases l with
  | nil => exact absurd rfl h
  | cons y ys => rfl

theorem joinSp_ne_nil {ws : List (List Char)} (hne : ws ≠ [])
    (hw : ∀ w ∈ ws, IsWordChars w) : joinSp ws ≠ [] := by
  cases ws with
  | nil => exact absurd rfl hne
  | cons w ws =>
    cases ws with
    | nil => exact (hw w (by simp)).1
    | cons x xs =>
      have : joinSp (w :: x :: xs) = w ++ ' ' :: joinSp (x :: xs) := rfl
      rw [this]
      intro hcontra
      rcases List.append_eq_nil.mp hcontra with ⟨_, h2⟩
      exact List.cons_ne_nil _ _ h2

theorem joinSp_append_single {ws : List (List Char)} (w : List Char) (h : ws ≠ []) :
    joinSp (ws ++ [w]) = joinSp ws ++ ' ' :: joinSp [w] := by
  induction ws with
  | nil => exact absurd rfl h
  | cons x xs ih =>
    cases xs with
    | nil => rfl
    | cons y ys =>
      have h1 : joinSp ((x :: y :: ys) ++ [w]) = x ++ ' ' :: joinSp ((y :: ys) ++ [w]) :=
        joinSp_cons_of_ne x (by simp)
      have h2 : joinSp (x :: y :: ys) = x ++ ' ' :: joinSp (y :: ys) := rfl
      rw [h1, ih (by simp), h2]
      simp

theorem splitWSAux_all_space {s : List Char} (hs : ∀ c ∈ s, isSpaceChar c = true) :
    ∀ acc, splitWSAux s acc = if acc.isEmpty then [] else [acc.reverse] := by
  induction s with
  | nil => intro acc; rfl
  | cons c cs ih =>
    intro acc
    have hc : isSpaceChar c = true := hs c (by simp)
    have hcs : ∀ d ∈ cs, isSpaceChar d = true := fun d hd => hs d (by simp [hd])
    by_cases hacc : acc.isEmpty
    · simp [splitWSAux, hc, hacc, ih hcs]
    · simp [splitWSAux, hc, hacc, ih hcs]

theorem splitWS_cons_space {c : Char} (hc : isSpaceChar c = true) (cs : List Char) :
    splitWS (c :: cs) = splitWS cs := by
  simp [splitWS, splitWSAux, hc]

theorem splitWSAux_word (w : List Char) (hw : ∀ c ∈ w, isSpaceChar c = false) :
    ∀ l acc, splitWSAux (w ++ l) acc = splitWSAux l (w.reverse ++ acc) := by
  induction w with
  | nil => intro l acc; simp
  | cons c cs ih =>
    intro l acc
    have hc : isSpaceChar c = false := hw c (by simp)
    have hcs : ∀ d ∈ cs, isSpaceChar d = false := fun d hd => hw d (by simp [hd])
    simp [splitWSAux, hc, ih hcs, List.append_assoc]

theorem splitWSAux_flush {l : List Char} {acc : List Char} (hacc : acc ≠ [])
    (hl : l = [] ∨ ∃ c cs, l = c :: cs ∧ isSpaceChar c = true) :
    splitWSAux l acc = acc.reverse :: splitWS l := by
  have haccE : acc.isEmpty = false := by
    cases acc with
    | nil => exact absurd rfl hacc
    | cons a as => rfl
  rcases hl with h | ⟨c, cs, rfl, hc⟩
  · subst h; simp [splitWSAux, haccE, splitWS]
  · simp [splitWSAux, haccE, hc, splitWS]

theorem splitWS_word_head {w : List Char} (hw : IsWordChars w) {l : List Char}
    (hl : l = [] ∨ ∃ c cs, l = c :: cs ∧ isSpaceChar c = true) :
    splitWS (w ++ l) = w :: splitWS l := by
  have h1 : splitWS (w ++ l) = splitWSAux l w.reverse := by
    have := splitWSAux_word w hw.2 l []
    simpa [splitWS] using this
  have h2 : splitWSAux l w.reverse = w.reverse.reverse :: splitWS l :=
    splitWSAux_flush (by simpa using hw.1) hl
  rw [h1, h2, List.reverse_reverse]

theorem splitWS_joinSp {ws : List (List Char)} (hw : ∀ w ∈ ws, IsWordChars w) :
    splitWS (joinSp ws) = ws := by
  induction ws with
  | nil => rfl
  | cons w rest ih =>
    cases rest with
    | nil =>
      have : joinSp [w] = w ++ [] := by simp [joinSp]
      rw [this, splitWS_word_head (hw w (by simp)) (Or.inl rfl)]
      rfl
    | cons x xs =>
      have hrest : ∀ v ∈ x :: xs, IsWordChars v := fun v hv => hw v (by simp [hv])
      have h1 : joinSp (w :: x :: xs) = w ++ ' ' :: joinSp (x :: xs) := rfl
      rw [h1, splitWS_word_head (hw w (by simp)) (Or.inr ⟨' ', joinSp (x :: xs), rfl, by decide⟩),
        splitWS_cons_space (by decide), ih hrest]

theorem splitWSAux_words_good {acc : List Char} (hacc : ∀ c ∈ acc, isSpaceChar c = false) :
    ∀ l, ∀ w ∈ splitWSAux l acc, IsWordChars w := by
  intro l
  induction l generalizing acc with
  | nil =>
    intro w hwmem
    by_cases h : acc.isEmpty
    · simp [splitWSAux, h] at hwmem
    · simp [splitWSAux, h] at hwmem
      subst hwmem
      refine ⟨by simpa [List.isEmpty_iff] using h, ?_⟩
      intro c hc
      exact hacc c (List.mem_reverse.mp hc)
  | cons c cs ih =>
    intro w hwmem
    by_cases hc : isSpaceChar c = true
    · by_cases h : acc.isEmpty
      · simp only [splitWSAux, hc, if_true, h] at hwmem
        exact ih (by intro d hd; simp at hd) w hwmem
      · simp only [splitWSAux, hc, if_true, h, if_false] at hwmem
        rcases List.mem_cons.mp hwmem with h1 | h1
        · subst h1
          refine ⟨by simpa [List.isEmpty_iff] using h, ?_⟩
          intro d hd
          exact hacc d (List.mem_reverse.mp hd)
        · exact ih (by intro d hd; simp at hd) w h1
    · have hc' : isSpaceChar c = false := by simpa using hc
      simp only [splitWSAux, hc', if_false, Bool.false_eq_true] at hwmem
      refine ih ?_ w hwmem
      intro d hd
      rcases List.mem_cons.mp hd with h1 | h1
      · subst h1; exact hc'
      · exact hacc d h1

theorem splitWS_words_good (l : List Char) : ∀ w ∈ splitWS l, IsWordChars w :=
  splitWSAux_words_good (by intro c hc; simp at hc) l

theorem splitWSAux_append_space {s : List Char} (hs : ∀ c ∈ s, isSpaceChar c = true) :
    ∀ l acc, splitWSAux (l ++ s) acc = splitWSAux l acc := by
  intro l
  induction l with
  | nil =>
    intro acc
    rw [List.nil_append, splitWSAux_all_space hs acc]
    rfl
  | cons c cs ih =>
    intro acc
    by_cases hc : isSpaceChar c = true
    · by_cases h : acc.isEmpty
      · simp [splitWSAux, hc, h, ih]
      · simp [splitWSAux, hc, h, ih]
    · have hc' : isSpaceChar c = false := by simpa using hc
      simp [splitWSAux, hc', ih]

theorem splitWS_append_space {s : List Char} (hs : ∀ c ∈ s, isSpaceChar c = true)
    (l : List Char) : splitWS (l ++ s) = splitWS l :=
  splitWSAux_append_space hs l []

theorem splitWS_dropWhile (l : List Char) :
    splitWS (l.dropWhile isSpaceChar) = splitWS l := by
  induction l with
  | nil => rfl
  | cons c cs ih =>
    by_cases hc : isSpaceChar c = true
    · rw [List.dropWhile_cons_of_pos hc, ih, splitWS_cons_space hc]
    · rw [List.dropWhile_cons_of_neg (by simpa using hc)]

theorem splitWS_trimWS (l : List Char) : splitWS (trimWS l) = splitWS l := by
  unfold trimWS
  set m := l.dropWhile isSpaceChar with hm
  have hdecomp : m = (m.reverse.dropWhile isSpaceChar).reverse ++
      (m.reverse.takeWhile isSpaceChar).reverse := by
    conv_lhs => rw [← List.reverse_reverse m, ← List.takeWhile_append_dropWhile
      (p := isSpaceChar) (l := m.reverse)]
    rw [List.reverse_append]
  have hsp : ∀ c ∈ (m.reverse.takeWhile isSpaceChar).reverse, isSpaceChar c = true := by
    intro c hc
    exact List.mem_takeWhile_imp (List.mem_reverse.mp hc)
  calc splitWS (m.reverse.dropWhile isSpaceChar).reverse
      = splitWS ((m.reverse.dropWhile isSpaceChar).reverse ++
          (m.reverse.takeWhile isSpaceChar).reverse) := (splitWS_append_space hsp _).symm
    _ = splitWS m := by rw [← hdecomp]
    _ = splitWS l := splitWS_dropWhile l

/-! ## `shorten_company_name` (main.py lines 112-119) -/

/-- Characters stripped by `str.strip(",.")`. -/
def isDotComma (c : Char) : Bool := c == ',' || c == '.'

/-- Python `s.strip(",.")`: remove leading and trailing `,`/`.` characters. -/
def stripDotCommaBoth (l : List Char) : List Char :=
  ((l.dropWhile isDotComma).reverse.dropWhile isDotComma).reverse

/-- Stripping only trailing `,`/`.` characters (the claim's reading). -/
def stripDotCommaTrailing (l : List Char) : List Char :=
  (l.reverse.dropWhile isDotComma).reverse

/-- Python `str.lower()` (ASCII). -/
def lowerW (l : List Char) : List Char := l.map Char.toLower

/-- The character class of `re.sub(r"[^a-zA-Z0-9 ]+", "", _)`: kept characters. -/
def keepAlnumSpace (c : Char) : Bool := c.isAlpha || c.isDigit || c == ' '

/-- Python `str.capitalize()`: first character upper-cased, rest lower-cased. -/
def capWord : List Char → List Char
  | [] => []
  | c :: cs => c.toUpper :: cs.map Char.toLower

/-- The legal-suffix set of `shorten_company_name`. -/
def legalSuffixes : List (List Char) :=
  ["inc".data, "llc".data, "ltd".data, "co".data, "company".data,
   "group".data, "plc".data, "corp".data, "corporation".data]

/-- `words = name.strip().split()`, then drop the last word if, lower-cased and
`strip(",.")`-ed, it is a legal suffix (main.py lines 114-116). -/
def shortenWords (name : String) : List (List Char) :=
  let ws := splitWS (trimWS name.data)
  match ws.getLast? with
  | some w => if legalSuffixes.contains (stripDotCommaBoth (lowerW w)) then ws.dropLast else ws
  | none => ws

/-- `shorten_company_name` (main.py lines 112-119): drop a legal suffix, join with
single spaces, delete every character outside `[A-Za-z0-9 ]`, strip, then
capitalize each word and join. -/
def shorten_company_name (name : String) : String :=
  ⟨joinSp ((splitWS (trimWS ((joinSp (shortenWords name)).filter keepAlnumSpace))).map capWord)⟩

/-- The suffix test as claim C2 words it: the last token is stripped of
*trailing* `.`/`,` only. -/
def shortenWordsClaim (name : String) : List (List Char) :=
  let ws := splitWS (trimWS name.data)
  match ws.getLast? with
  | some w => if legalSuffixes.contains (stripDotCommaTrailing (lowerW w)) then ws.dropLast else ws
  | none => ws

/-- Claim C2's algorithm, exactly as stated: trim, drop the suffix token when its
trailing-`.`/`,`-stripped lower-casing is a legal suffix, remove characters
outside `[A-Za-z0-9 ]`, title-case the remaining words, join with single spaces. -/
def shorten_spec_trailing (name : String) : String :=
  ⟨joinSp ((splitWS ((joinSp (shortenWordsClaim name)).filter keepAlnumSpace)).map capWord)⟩

/-- The amended algorithm: identical, but the suffix token is stripped of leading
*and* trailing `.`/`,` (Python `strip(",.")`), as the code does. -/
def shorten_spec_both (name : String) : String :=
  ⟨joinSp ((splitWS ((joinSp (shortenWords name)).filter keepAlnumSpace)).map capWord)⟩

/-! ## `wrap_text_to_box` (main.py lines 417-433)

`widthF` stands for `draw.textbbox((0,0), line, font)[2] - bbox[0]`, the
rendered width of a line in the given font.  The `f"{current} {word}".strip()`
of the source is `current ++ ' ' :: word` when `current` is non-empty and
`word` when it is empty: both strings are space-joins of `split()` words, so
the outer `strip()` never removes anything. -/

def wrapWords (widthF : List Char → Nat) (maxW : Nat) :
    List Char → List (List Char) → List (List Char)
  | current, [] => if current.isEmpty then [] else [current]
  | current, w :: ws =>
    let test := if current.isEmpty then w else current ++ ' ' :: w
    if widthF test ≤ maxW then wrapWords widthF maxW test ws
    else if current.isEmpty then wrapWords widthF maxW w ws
    else current :: wrapWords widthF maxW w ws

/-- `wrap_text_to_box` (main.py lines 417-433): greedy word-wrap of `text` into
width `maxW` under the metric `widthF`. -/
def wrap_text_to_box (widthF : List Char → Nat) (text : List Char) (maxW : Nat) :
    List (List Char) :=
  wrapWords widthF maxW [] (splitWS text)

theorem wrapWords_mem_invariant (widthF : List Char → Nat) (maxW : Nat)
    (W : List (List Char)) :
    ∀ (ws : List (List Char)) (current : List Char),
      (∀ w ∈ ws, w ∈ W) →
      (current = [] ∨ widthF current ≤ maxW ∨ current ∈ W) →
      ∀ line ∈ wrapWords widthF maxW current ws,
        widthF line ≤ maxW ∨ line ∈ W := by
  intro ws
  induction ws with
  | nil =>
    intro current _ hcur line hline
    by_cases h : current.isEmpty
    · simp [wrapWords, h] at hline
    · simp [wrapWords, h] at hline
      subst hline
      rcases hcur with h1 | h1 | h1
      · subst h1; simp at h
      · exact Or.inl h1
      · exact Or.inr h1
  | cons w ws ih =>
    intro current hws hcur line hline
    have hwW : w ∈ W := hws w (by simp)
    have hws' : ∀ v ∈ ws, v ∈ W := fun v hv => hws v (by simp [hv])
    rw [wrapWords] at hline
    by_cases htest : widthF (if current.isEmpty then w else current ++ ' ' :: w) ≤ maxW
    · rw [if_pos htest] at hline
      exact ih _ hws' (Or.inr (Or.inl htest)) line hline
    · rw [if_neg htest] at hline
      by_cases hc : current.isEmpty
      · rw [if_pos hc] at hline
        exact ih _ hws' (Or.inr (Or.inr hwW)) line hline
      · rw [if_neg hc] at hline
        rcases List.mem_cons.mp hline with h1 | h1
        · subst h1
          rcases hcur with h2 | h2 | h2
          · subst h2; simp at hc
          · exact Or.inl h2
          · exact Or.inr h2
        · exact ih _ hws' (Or.inr (Or.inr hwW)) line h1

theorem wrapWords_join (widthF : List Char → Nat) (maxW : Nat) :
    ∀ (ws : List (List Char)) (cs : List (List Char)),
      (∀ w ∈ ws, IsWordChars w) → (∀ w ∈ cs, IsWordChars w) →
      ((wrapWords widthF maxW (joinSp cs) ws).map splitWS).flatten = cs ++ ws := by
  intro ws
  induction ws with
  | nil =>
    intro cs _ hcs
    cases cs with
    | nil => simp [joinSp, wrapWords]
    | cons c crest =>
      have hne : joinSp (c :: crest) ≠ [] := joinSp_ne_nil (by simp) hcs
      have hE : (joinSp (c :: crest)).isEmpty = false := by
        cases h : joinSp (c :: crest) with
        | nil => exact absurd h hne
        | cons a as => rfl
      simp [wrapWords, hE, splitWS_joinSp hcs]
  | cons w ws ih =>
    intro cs hws hcs
    have hw : IsWordChars w := hws w (by simp)
    have hws' : ∀ v ∈ ws, IsWordChars v := fun v hv => hws v (by simp [hv])
    have hcsw : ∀ v ∈ cs ++ [w], IsWordChars v := by
      intro v hv
      rcases List.mem_append.mp hv with h | h
      · exact hcs v h
      · simp at h; subst h; exact hw
    have h3 := ih [w] hws' (by intro v hv; simp at hv; subst hv; exact hw)
    rw [show joinSp [w] = w from rfl] at h3
    have htest : (if (joinSp cs).isEmpty then w else joinSp cs ++ ' ' :: w) =
        joinSp (cs ++ [w]) := by
      cases cs with
      | nil => simp [joinSp]
      | cons c crest =>
        have hne : joinSp (c :: crest) ≠ [] := joinSp_ne_nil (by simp) hcs
        have hE : (joinSp (c :: crest)).isEmpty = false := by
          cases h : joinSp (c :: crest) with
          | nil => exact absurd h hne
          | cons a as => rfl
        rw [if_neg (by simp [hE]), joinSp_append_single w (by simp)]
        rfl
    rw [wrapWords, htest]
    by_cases hfit : widthF (joinSp (cs ++ [w])) ≤ maxW
    · rw [if_pos hfit, ih (cs ++ [w]) hws' hcsw]
      simp
    · rw [if_neg hfit]
      by_cases hc : (joinSp cs).isEmpty
      · have hcs0 : cs = [] := by
          cases cs with
          | nil => rfl
          | cons c crest =>
            have hne : joinSp (c :: crest) ≠ [] := joinSp_ne_nil (by simp) hcs
            rw [List.isEmpty_iff] at hc
            exact absurd hc hne
        subst hcs0
        rw [if_pos hc, h3]
        simp
      · rw [if_neg hc]
        simp only [List.map_cons, List.flatten_cons]
        rw [splitWS_joinSp hcs, h3]
        simp

/-! ## `draw_text_block` line height (main.py lines 436-471)

`heightF` stands for `draw.textbbox((0,0), line, font)[3] - bbox[1]`, the
rendered height of a string in the given font.  The code measures
`line or "Ay"` for every wrapped line and takes the `max`; only when there
are no lines at all does it fall back to measuring `"Ay"` itself. -/

/-- Python `line or "Ay"`. -/
def lineOrAy (l : List Char) : List Char := if l.isEmpty then "Ay".data else l

/-- The `line_heights` list of `draw_text_block` (main.py lines 445-448). -/
def measuredHeights (heightF : List Char → Nat) (lines : List (List Char)) : List Nat :=
  lines.map (fun l => heightF (lineOrAy l))

/-- Python `max(l)` for a non-empty list of naturals. -/
def pyMaxList (l : List Nat) : Nat := l.foldl Nat.max 0

/-- `line_height` of `draw_text_block` (main.py line 449):
`max(line_heights) if line_heights else font-height of "Ay"`. -/
def text_line_height (heightF : List Char → Nat) (lines : List (List Char)) : Nat :=
  if (measuredHeights heightF lines).isEmpty then heightF "Ay".data
  else pyMaxList (measuredHeights heightF lines)

/-- The line height `draw_text_block` uses after wrapping `text` into width `w`. -/
def draw_text_block_line_height (widthF heightF : List Char → Nat)
    (text : List Char) (w : Nat) : Nat :=
  text_line_height heightF (wrap_text_to_box widthF text w)

/-- The y coordinate of the i-th wrapped line (main.py line 471:
`start_y + i * line_height`). -/
def draw_line_y (startY lineHeight i : Nat) : Nat := startY + i * lineHeight

theorem foldl_max_le (l : List Nat) : ∀ a, a ≤ l.foldl Nat.max a ∧
    ∀ x ∈ l, x ≤ l.foldl Nat.max a := by
  induction l with
  | nil => intro a; exact ⟨le_refl a, by intro x hx; simp at hx⟩
  | cons y ys ih =>
    intro a
    have h := ih (Nat.max a y)
    refine ⟨le_trans (Nat.le_max_left a y) h.1, ?_⟩
    intro x hx
    rcases List.mem_cons.mp hx with h1 | h1
    · rw [h1]; exact le_trans (Nat.le_max_right a y) h.1
    · exact h.2 x h1

theorem foldl_max_or (l : List Nat) : ∀ a, l.foldl Nat.max a = a ∨ l.foldl Nat.max a ∈ l := by
  induction l with
  | nil => intro a; exact Or.inl rfl
  | cons y ys ih =>
    intro a
    rcases ih (Nat.max a y) with h | h
    · rcases Nat.le_total a y with hle | hle
      · have hmax : Nat.max a y = y := Nat.max_eq_right hle
        rw [List.foldl_cons, h, hmax]
        exact Or.inr (by simp)
      · have hmax : Nat.max a y = a := Nat.max_eq_left hle
        rw [List.foldl_cons, h, hmax]
        exact Or.inl rfl
    · exact Or.inr (by simp [List.foldl_cons, h])

theorem pyMaxList_mem {l : List Nat} (h : l ≠ []) : pyMaxList l ∈ l := by
  rcases foldl_max_or l 0 with h1 | h1
  · cases l with
    | nil => exact absurd rfl h
    | cons y ys =>
      have hy : y ≤ (y :: ys).foldl Nat.max 0 := (foldl_max_le (y :: ys) 0).2 y (by simp)
      rw [pyMaxList, h1]
      rw [h1] at hy
      have : y = 0 := Nat.le_zero.mp hy
      simp [this]
  · exact h1

theorem pyMaxList_ge {l : List Nat} {x : Nat} (h : x ∈ l) : x ≤ pyMaxList l :=
  (foldl_max_le l 0).2 x h

/-! ## IEEE-754 double rounding over exact fractions

Python's `/` on two ints produces a correctly rounded binary64 float, and a
float times the exact int `100` is again a correct rounding of the exact
product.  `roundP` rounds a non-negative exact fraction to 53 significant
bits, round-to-nearest ties-to-even, which is exactly IEEE-754 for values in
normal range (all values in this development are in `[1/2^60, 2^60]`).
Everything is structural `Nat` arithmetic so it evaluates inside `decide`. -/

/-- Fuelled binary logarithm: `nlog2Aux fuel n = ⌊log₂ n⌋` for `1 ≤ n ≤ fuel`. -/
def nlog2Aux : Nat → Nat → Nat
  | 0, _ => 0
  | fuel + 1, n => if n ≤ 1 then 0 else nlog2Aux fuel (n / 2) + 1

/-- `⌊log₂ n⌋` (0 for `n = 0`), by structural recursion so it kernel-reduces. -/
def nlog2 (n : Nat) : Nat := nlog2Aux n n

/-- A non-negative exact fraction `n / d` (`d > 0` at every use site). -/
structure Q2 where
  n : Nat
  d : Nat
deriving DecidableEq

/-- Does `2 ^ e ≤ x` hold?  (`e : ℤ`; one of the two powers is `2 ^ 0`.) -/
def pow2LeQ (e : Int) (x : Q2) : Prop :=
  x.d * 2 ^ e.toNat ≤ x.n * 2 ^ (-e).toNat

instance (e : Int) (x : Q2) : Decidable (pow2LeQ e x) := by
  unfold pow2LeQ; infer_instance

/-- First exponent guess for `x`, from the integer logs of numerator and
denominator; the true exponent is this or one less. -/
def q2e0 (x : Q2) : Int := (nlog2 x.n : Int) - (nlog2 x.d : Int)

/-- The binary exponent of `x`: the `e` with `2 ^ e ≤ x < 2 ^ (e+1)`. -/
def q2e (x : Q2) : Int :=
  if pow2LeQ (q2e0 x + 1) x then q2e0 x + 1
  else if pow2LeQ (q2e0 x) x then q2e0 x else q2e0 x - 1

/-- Numerator of `x` scaled so that the quotient lies in `[2^52, 2^53)`. -/
def q2num (x : Q2) : Nat := x.n * 2 ^ ((52 : Int) - q2e x).toNat

/-- Denominator of `x` scaled so that the quotient lies in `[2^52, 2^53)`. -/
def q2den (x : Q2) : Nat := x.d * 2 ^ (q2e x - 52).toNat

/-- The rounded 53-bit significand: nearest integer to the scaled quotient,
ties to even. -/
def q2m (x : Q2) : Nat :=
  let q := q2num x / q2den x
  let r := q2num x % q2den x
  if 2 * r < q2den x then q
  else if q2den x < 2 * r then q + 1
  else if q % 2 = 0 then q else q + 1

/-- Round the non-negative fraction `x` to the nearest binary64 value
(round-to-nearest, ties-to-even, 53-bit significand; exact for the normal,
non-overflowing range used here). -/
def roundP (x : Q2) : Q2 :=
  if x.n = 0 ∨ x.d = 0 then ⟨0, 1⟩
  else ⟨q2m x * 2 ^ (q2e x - 52).toNat, 2 ^ ((52 : Int) - q2e x).toNat⟩

/-- Truncation toward zero of a non-negative fraction (Python `int(...)`). -/
def q2trunc (x : Q2) : Nat := x.n / x.d

/-- Exact comparison `a < b` of two fractions by cross-multiplication. -/
def q2lt (a b : Q2) : Bool := a.n * b.d < b.n * a.d

/-- `int(((k) / (total)) * 100)` as Python computes it (main.py line 742):
`k / total` is a binary64 division, `* 100` a binary64 multiplication, and
`int` truncates. -/
def pyPercent (k total : Nat) : Nat :=
  q2trunc (roundP ⟨(roundP ⟨k, total⟩).n * 100, (roundP ⟨k, total⟩).d⟩)

theorem roundP_diag (n : Nat) (hn : n ≠ 0) : roundP ⟨n, n⟩ = ⟨2 ^ 52, 2 ^ 52⟩ := by
  have hpos : 0 < n := Nat.pos_of_ne_zero hn
  have he0 : q2e0 ⟨n, n⟩ = 0 := by simp [q2e0]
  have e1 : ((0 : Int) + 1).toNat = 1 := by decide
  have e2 : (-((0 : Int) + 1)).toNat = 0 := by decide
  have e3 : ((0 : Int)).toNat = 0 := by decide
  have e4 : (-(0 : Int)).toNat = 0 := by decide
  have hp1 : ¬ pow2LeQ (q2e0 ⟨n, n⟩ + 1) ⟨n, n⟩ := by
    rw [he0]
    show ¬ (n * 2 ^ ((0 : Int) + 1).toNat ≤ n * 2 ^ (-((0 : Int) + 1)).toNat)
    rw [e1, e2, pow_one, pow_zero, Nat.mul_one]
    omega
  have hp0 : pow2LeQ (q2e0 ⟨n, n⟩) ⟨n, n⟩ := by
    rw [he0]
    show n * 2 ^ ((0 : Int)).toNat ≤ n * 2 ^ (-(0 : Int)).toNat
    rw [e3, e4]
  have he : q2e ⟨n, n⟩ = 0 := by
    rw [q2e, if_neg hp1, if_pos hp0, he0]
  have e5 : ((52 : Int) - 0).toNat = 52 := by decide
  have e6 : ((0 : Int) - 52).toNat = 0 := by decide
  have hnum : q2num ⟨n, n⟩ = n * 2 ^ 52 := by
    rw [q2num, he, e5]
  have hden : q2den ⟨n, n⟩ = n := by
    rw [q2den, he, e6, pow_zero, Nat.mul_one]
  have hm : q2m ⟨n, n⟩ = 2 ^ 52 := by
    rw [q2m]
    simp only [hnum, hden]
    rw [Nat.mul_div_cancel_left _ hpos, Nat.mul_mod_right]
    rw [if_pos (by omega : 2 * 0 < n)]
  rw [roundP, if_neg (by simp [hn]), hm, he, e5, e6, pow_zero, Nat.mul_one]

theorem pyPercent_self (n : Nat) (hn : n ≠ 0) : pyPercent n n = 100 := by
  unfold pyPercent
  rw [roundP_diag n hn]
  decide

example : pyPercent 29 50 = 57 := by decide
example : pyPercent 29 100 = 28 := by decide
example : pyPercent 1 50 = 2 := by decide
example : pyPercent 28 50 = 56 := by decide
example : pyPercent 30 50 = 60 := by decide
example : pyPercent 50 50 = 100 := by decide
example : pyPercent 3 7 = 42 := by decide

/-! ## `paste_image` (main.py lines 521-545)

Dimensions are pixel counts (`Nat`).  `fit == "contain"` calls Pillow's
`Image.thumbnail((w, h))`, embedded here after Pillow's source: return the
original size when it already fits, otherwise scale the constraining axis to
the box and round the other axis to the integer (floor or ceil of the exact
aspect-preserving value, whichever is closer to the true aspect, floor on
ties, at least 1).  Pillow compares the keys in float; the comparison here is
exact by cross-multiplication — both candidates satisfy every bound proved
below, so no claim depends on that difference.  The `"cover"` branch follows
main.py lines 534-545; its ratio comparison and the scaled coordinate use
binary64 arithmetic (`roundP`), and `int(...)` truncates. -/

/-- Pillow `Image.thumbnail`: the size `(w, h)` is fitted into `(boxW, boxH)`. -/
def thumbnail_fit (origW origH boxW boxH : Nat) : Nat × Nat :=
  if origW ≤ boxW ∧ origH ≤ boxH then (origW, origH)
  else if origW * boxH ≤ boxW * origH then
    -- x / y ≥ aspect: height becomes boxH, width = round_aspect(boxH * aspect)
    let v := boxH * origW
    let f := v / origH
    let c := (v + origH - 1) / origH
    let kf := ((origW * boxH : Int) - (f * origH : Int)).natAbs
    let kc := ((origW * boxH : Int) - (c * origH : Int)).natAbs
    (Nat.max (if kf ≤ kc then f else c) 1, boxH)
  else
    -- width becomes boxW, height = round_aspect(boxW / aspect)
    let v := boxW * origH
    let f := v / origW
    let c := (v + origW - 1) / origW
    let kf := ((origW * f : Int) - (boxW * origH : Int)).natAbs
    let kc := ((origW * c : Int) - (boxW * origH : Int)).natAbs
    (boxW, Nat.max (if f = 0 then f else if kf * c ≤ kc * f then f else c) 1)

/-- The `"cover"` branch of `paste_image` (main.py lines 534-541):
`img_ratio` and `box_ratio` are binary64 quotients; the constraining axis is
set to the box size exactly, the other axis is `int` of a binary64 product or
quotient with the rounded `img_ratio`. -/
def cover_fit (origW origH boxW boxH : Nat) : Nat × Nat :=
  let ir := roundP ⟨origW, origH⟩
  let br := roundP ⟨boxW, boxH⟩
  if q2lt br ir then
    (boxW, q2trunc (roundP ⟨boxW * ir.d, ir.n⟩))
  else
    (q2trunc (roundP ⟨boxH * ir.n, ir.d⟩), boxH)

/-- Size chosen by `paste_image` for the given fit mode (default `"cover"`). -/
def paste_image_size (origW origH boxW boxH : Nat) (fit : String) : Nat × Nat :=
  if fit = "contain" then thumbnail_fit origW origH boxW boxH
  else cover_fit origW origH boxW boxH

/-- Paste offset on one axis (main.py lines 530-531 and 543-544):
`x + (w - img.width) // 2`; Python `//` floors, which for the positive
divisor 2 is `Int` division. -/
def paste_offset (boxPos boxLen imgLen : Nat) : Int :=
  (boxPos : Int) + ((boxLen : Int) - (imgLen : Int)) / 2

/-- Placement computed by `paste_image`: size and top-left offset. -/
def paste_image_placement (origW origH x y w h : Nat) (fit : String) :
    (Nat × Nat) × (Int × Int) :=
  let s := paste_image_size origW origH w h fit
  (s, (paste_offset x w s.1, paste_offset y h s.2))

theorem ceil_div_le {v d m : Nat} (hd : 0 < d) (h : v ≤ m * d) : (v + d - 1) / d ≤ m := by
  by_contra hcon
  push_neg at hcon
  have h4 : d * (m + 1) ≤ d * ((v + d - 1) / d) := Nat.mul_le_mul (le_refl d) hcon
  have h1 := Nat.div_add_mod (v + d - 1) d
  have h2 := Nat.mod_lt (v + d - 1) hd
  have e1 : d * (m + 1) = d * m + d := by ring
  have e2 : m * d = d * m := by ring
  omega

theorem floor_div_le {v d m : Nat} (hd : 0 < d) (h : v ≤ m * d) : v / d ≤ m :=
  le_trans (Nat.div_le_div_right h) (by rw [Nat.mul_div_cancel _ hd])

/-- `thumbnail` bounds: the contained size never exceeds the original size nor
the box on either axis. -/
theorem thumbnail_fit_le (origW origH boxW boxH : Nat) (hW : 0 < origW)
    (hH : 0 < origH) (hbW : 0 < boxW) (hbH : 0 < boxH) :
    (thumbnail_fit origW origH boxW boxH).1 ≤ origW ∧
    (thumbnail_fit origW origH boxW boxH).2 ≤ origH ∧
    (thumbnail_fit origW origH boxW boxH).1 ≤ boxW ∧
    (thumbnail_fit origW origH boxW boxH).2 ≤ boxH := by
  rw [thumbnail_fit]
  by_cases hfits : origW ≤ boxW ∧ origH ≤ boxH
  · rw [if_pos hfits]
    exact ⟨le_refl _, le_refl _, hfits.1, hfits.2⟩
  · rw [if_neg hfits]
    by_cases hA : origW * boxH ≤ boxW * origH
    · rw [if_pos hA]
      -- branch A: boxH ≤ origH, else the image would fit
      have hHle : boxH ≤ origH := by
        by_contra hcon
        push_neg at hcon
        have h1 : origW * boxH < boxW * boxH :=
          calc origW * boxH ≤ boxW * origH := hA
            _ < boxW * boxH := mul_lt_mul_of_pos_left hcon hbW
        have h2 : origW < boxW := lt_of_mul_lt_mul_right h1 (Nat.zero_le boxH)
        exact hfits ⟨le_of_lt h2, le_of_lt hcon⟩
      have hvW : boxH * origW ≤ boxW * origH :=
        calc boxH * origW = origW * boxH := by ring
          _ ≤ boxW * origH := hA
      have hvO : boxH * origW ≤ origW * origH :=
        calc boxH * origW ≤ origH * origW := Nat.mul_le_mul hHle (le_refl origW)
          _ = origW * origH := by ring
      have hcW : (boxH * origW + origH - 1) / origH ≤ boxW := ceil_div_le hH hvW
      have hcO : (boxH * origW + origH - 1) / origH ≤ origW := ceil_div_le hH hvO
      have hfW : boxH * origW / origH ≤ boxW := floor_div_le hH hvW
      have hfO : boxH * origW / origH ≤ origW := floor_div_le hH hvO
      refine ⟨?_, hHle, ?_, le_refl _⟩
      · refine Nat.max_le.mpr ⟨?_, hW⟩
        split
        · exact hfO
        · exact hcO
      · refine Nat.max_le.mpr ⟨?_, hbW⟩
        split
        · exact hfW
        · exact hcW
    · rw [if_neg hA]
      push_neg at hA
      -- branch B: boxW ≤ origW, else the image would fit
      have hWle : boxW ≤ origW := by
        by_contra hcon
        push_neg at hcon
        have h1 : boxW * origH < boxW * boxH :=
          calc boxW * origH < origW * boxH := hA
            _ ≤ boxW * boxH := Nat.mul_le_mul (le_of_lt hcon) (le_refl boxH)
        have h2 : origH < boxH := lt_of_mul_lt_mul_left h1 (Nat.zero_le boxW)
        exact hfits ⟨le_of_lt hcon, le_of_lt h2⟩
      have hvH : boxW * origH ≤ boxH * origW :=
        calc boxW * origH ≤ origW * boxH := le_of_lt hA
          _ = boxH * origW := by ring
      have hvO : boxW * origH ≤ origH * origW :=
        calc boxW * origH ≤ origW * origH := Nat.mul_le_mul hWle (le_refl origH)
          _ = origH * origW := by ring
      have hcH : (boxW * origH + origW - 1) / origW ≤ boxH := ceil_div_le hW hvH
      have hcO : (boxW * origH + origW - 1) / origW ≤ origH := ceil_div_le hW hvO
      have hfH : boxW * origH / origW ≤ boxH := floor_div_le hW hvH
      have hfO : boxW * origH / origW ≤ origH := floor_div_le hW hvO
      refine ⟨hWle, ?_, le_refl _, ?_⟩
      · refine Nat.max_le.mpr ⟨?_, hH⟩
        split
        · exact hfO
        · split
          · exact hfO
          · exact hcO
      · refine Nat.max_le.mpr ⟨?_, hbH⟩
        split
        · exact hfH
        · split
          · exact hfH
          · exact hcH

/-- `cover` always matches the box exactly on the constraining axis, so the
result is at least the box size on at least one axis. -/
theorem cover_fit_ge (origW origH boxW boxH : Nat) :
    boxW ≤ (cover_fit origW origH boxW boxH).1 ∨
    boxH ≤ (cover_fit origW origH boxW boxH).2 := by
  rw [cover_fit]
  split
  · exact Or.inl (le_refl _)
  · exact Or.inr (le_refl _)

/-- The two margins `paste_offset` leaves on an axis differ by at most one
pixel (the placement is centered). -/
theorem paste_offset_centered (boxPos boxLen imgLen : Nat) :
    (paste_offset boxPos boxLen imgLen - boxPos) ≤
      (boxPos + boxLen - (paste_offset boxPos boxLen imgLen + imgLen)) + 1 ∧
    (boxPos + boxLen - (paste_offset boxPos boxLen imgLen + imgLen)) ≤
      (paste_offset boxPos boxLen imgLen - boxPos) + 1 := by
  rw [paste_offset]
  have h1 := Int.ediv_add_emod ((boxLen : Int) - (imgLen : Int)) 2
  have h2 := Int.emod_nonneg ((boxLen : Int) - (imgLen : Int)) (by norm_num : (2:Int) ≠ 0)
  have h3 := Int.emod_lt_of_pos ((boxLen : Int) - (imgLen : Int)) (by norm_num : (0:Int) < 2)
  omega

/-! ## The batch job loop `process_job` (main.py lines 693-761)

One CSV/XLSX row is an association list of column name to cell text (cells
are strings once parsed; `str(...)` is the identity on them).  The
render-and-upload of one row (`apply_variables` + `upload_to_cloudinary`) is
the opaque `ru`; `Except.error e` is a raised exception with message `e`.
The `ProcessedCompany` table content at job start is `dbIds`; rows the job
inserts are appended to it. -/

/-- A parsed spreadsheet row: column name to cell text, unique keys. -/
abbrev Row := List (String × String)

/-- Python `row.get(k, "")` (also `row.get(k) or ""` for string cells). -/
def rowGet (row : Row) (k : String) : String :=
  match row.find? (fun p => p.1 == k) with
  | some p => p.2
  | none => ""

/-- Python `row[k] = v` on a dict: overwrite in place or append. -/
def rowSet (row : Row) (k v : String) : Row :=
  if row.any (fun p => p.1 == k) then
    row.map (fun p => if p.1 == k then (k, v) else p)
  else row ++ [(k, v)]

/-- Python `s.strip()` on a string. -/
def pyStripStr (s : String) : String := ⟨trimWS s.data⟩

/-- `identifier_value` of one row (main.py lines 718-720): `None` when no
identifier column is configured (a Python-falsy column name counts as none),
else `str(row.get(col) or "").strip()`. -/
def idValue (idCol : Option String) (row : Row) : Option String :=
  match idCol with
  | some c => if c = "" then none else some (pyStripStr (rowGet row c))
  | none => none

/-- The skip test (main.py line 722):
`skip_processed and identifier_value and identifier_value in processed_cache`. -/
def skipRowB (skipP : Bool) (idVal : Option String) (cache : List String) : Bool :=
  match idVal with
  | some v => skipP && (v != "") && cache.contains v
  | none => false

/-- Result record of one row as `process_job` stores it: index, terminal
status, url, error message. -/
structure RowRes where
  row : Nat
  status : String
  url : Option String
  err : Option String
deriving DecidableEq

/-- Everything one iteration of the row loop produces. -/
structure StepOut where
  res : RowRes
  rowOut : Row
  cache : List String
  db : List String
  called : Bool
deriving DecidableEq

/-- One iteration of the loop body of `process_job` (main.py lines 716-741):
skip when the identifier is cached; otherwise render+upload, recording
`done`/`error`; a `done` row with a fresh non-empty identifier is added to
the in-memory cache and, if absent, to the `ProcessedCompany` table. -/
def processRow (ru : Nat → Row → Except String String) (skipP : Bool)
    (idCol : Option String) (idx : Nat) (row : Row) (cache db : List String) :
    StepOut :=
  let idVal := idValue idCol row
  if skipRowB skipP idVal cache then
    ⟨⟨idx, "skipped", none, some "Identifier already processed"⟩,
      rowSet row "mockup_url" (rowGet row "mockup_url"), cache, db, false⟩
  else
    match ru idx row with
    | Except.ok url =>
      let addCache : Bool := match idVal with
        | some v => (v != "") && !(cache.contains v)
        | none => false
      let v := (idVal.getD "")
      ⟨⟨idx, "done", some url, none⟩, rowSet row "mockup_url" url,
        if addCache then cache ++ [v] else cache,
        if addCache && !(db.contains v) then db ++ [v] else db, true⟩
    | Except.error e =>
      ⟨⟨idx, "error", none, some e⟩, rowSet row "mockup_url" "", cache, db, true⟩

/-- Accumulated output of the row loop. -/
structure LoopOut where
  results : List RowRes
  rowsOut : List Row
  trace : List Nat
  cache : List String
  db : List String
  calls : List Nat
deriving DecidableEq

/-- The row loop of `process_job` (main.py lines 716-752), starting at row
index `idx`: processes each row, then persists the recomputed progress
`int(((idx + 1) / total) * 100)`; `trace` is the sequence of persisted
progress values, `calls` the indices whose render+upload ran. -/
def processLoop (ru : Nat → Row → Except String String) (skipP : Bool)
    (idCol : Option String) (total : Nat) :
    Nat → List Row → List String → List String → LoopOut
  | _, [], cache, db => ⟨[], [], [], cache, db, []⟩
  | idx, row :: rest, cache, db =>
    let o := processRow ru skipP idCol idx row cache db
    let r := processLoop ru skipP idCol total (idx + 1) rest o.cache o.db
    ⟨o.res :: r.results, o.rowOut :: r.rowsOut, pyPercent (idx + 1) total :: r.trace,
      r.cache, r.db, if o.called then idx :: r.calls else r.calls⟩

/-- `processed_cache` loaded at job start (main.py lines 711-714): the
non-falsy identifiers of the `ProcessedCompany` table, only when
`skip_processed` is set and an identifier column is configured. -/
def idColActive : Option String → Bool
  | some c => c != ""
  | none => false

def initialCache (skipP : Bool) (idCol : Option String) (dbIds : List String) :
    List String :=
  if skipP && idColActive idCol then dbIds.filter (fun v => v != "") else []

/-- Final state of one job. -/
structure JobFinal where
  results : List RowRes
  rowsOut : List Row
  trace : List Nat
  progress : Nat
  status : String
  cache : List String
  db : List String
  calls : List Nat
deriving DecidableEq

/-- `process_job` (main.py lines 693-761): run the loop over all rows from
index 0, then mark the job `done`.  The final stored progress is the last
persisted value (0, the creation value, if there were no rows). -/
def process_job (ru : Nat → Row → Except String String) (rows : List Row)
    (skipP : Bool) (idCol : Option String) (dbIds : List String) : JobFinal :=
  let o := processLoop ru skipP idCol rows.length 0 rows
    (initialCache skipP idCol dbIds) dbIds
  ⟨o.results, o.rowsOut, o.trace, o.trace.getLastD 0, "done", o.cache, o.db, o.calls⟩

/-- The `(processed_cache, ProcessedCompany)` state just before row `j` of a
`process_job` run. -/
def jobStateBefore (ru : Nat → Row → Except String String) (rows : List Row)
    (skipP : Bool) (idCol : Option String) (dbIds : List String) (j : Nat) :
    List String × List String :=
  let o := processLoop ru skipP idCol rows.length 0 (rows.take j)
    (initialCache skipP idCol dbIds) dbIds
  (o.cache, o.db)

/-! ## `job_status` progress read (main.py lines 1044-1061) -/

/-- The status-endpoint progress logic: recompute
`int((max(processed, done_like) / total) * 100)` from the stored results,
raise the stored progress to it when higher, and return the larger of the
two; first component is the stored progress after the read, second the value
returned to the client. -/
def job_status_read (stored : Nat) (results : List RowRes) (total : Nat) :
    Nat × Nat :=
  let processed := results.length
  let doneLike := (results.filter
    (fun r => r.status == "done" || r.status == "skipped" || r.status == "error")).length
  let derived := if total = 0 then stored else pyPercent (Nat.max processed doneLike) total
  let stored2 := if stored < derived then derived else stored
  (stored2, Nat.max stored2 derived)

theorem find?_map_overwrite (k v : String) :
    ∀ (row : Row), row.any (fun p => p.1 == k) = true →
      (row.map (fun p => if p.1 == k then (k, v) else p)).find?
        (fun p => p.1 == k) = some (k, v) := by
  intro row
  induction row with
  | nil => intro h; simp at h
  | cons p ps ih =>
    intro h
    rw [List.map_cons]
    by_cases hp : (p.1 == k) = true
    · rw [if_pos hp, List.find?_cons_of_pos _ (by simp)]
    · rw [if_neg hp]
      have h' : ps.any (fun q => q.1 == k) = true := by
        rcases List.any_eq_true.mp h with ⟨q, hq, hqk⟩
        rcases List.mem_cons.mp hq with h2 | h2
        · rw [h2] at hqk; exact absurd hqk hp
        · exact List.any_eq_true.mpr ⟨q, h2, hqk⟩
      rw [List.find?_cons_of_neg _ (by simpa using hp), ih h']

theorem find?_append_fresh (k v : String) :
    ∀ (row : Row), row.any (fun p => p.1 == k) = false →
      (row ++ [(k, v)]).find? (fun p => p.1 == k) = some (k, v) := by
  intro row
  induction row with
  | nil => intro _; rw [List.nil_append, List.find?_cons_of_pos _ (by simp)]
  | cons p ps ih =>
    intro h
    rw [List.any_cons] at h
    have hp : (p.1 == k) = false := by
      cases hcase : (p.1 == k) with
      | false => rfl
      | true => rw [hcase] at h; simp at h
    have h' : ps.any (fun q => q.1 == k) = false := by
      rw [hp] at h; simpa using h
    rw [List.cons_append, List.find?_cons_of_neg _ (by simp [hp]), ih h']

theorem rowGet_rowSet (row : Row) (k v : String) : rowGet (rowSet row k v) k = v := by
  rw [rowSet]
  by_cases hany : row.any (fun p => p.1 == k) = true
  · rw [if_pos hany, rowGet, find?_map_overwrite k v row hany]
  · rw [if_neg hany, rowGet,
      find?_append_fresh k v row (Bool.eq_false_iff.mpr hany)]

theorem processRow_row (ru : Nat → Row → Except String String) (skipP : Bool)
    (idCol : Option String) (idx : Nat) (row : Row) (cache db : List String) :
    (processRow ru skipP idCol idx row cache db).res.row = idx := by
  rw [processRow]
  by_cases h : skipRowB skipP (idValue idCol row) cache
  · rw [if_pos h]
  · rw [if_neg h]
    cases ru idx row with
    | ok url => rfl
    | error e => rfl

theorem processRow_status (ru : Nat → Row → Except String String) (skipP : Bool)
    (idCol : Option String) (idx : Nat) (row : Row) (cache db : List String) :
    (processRow ru skipP idCol idx row cache db).res.status = "done" ∨
    (processRow ru skipP idCol idx row cache db).res.status = "skipped" ∨
    (processRow ru skipP idCol idx row cache db).res.status = "error" := by
  rw [processRow]
  by_cases h : skipRowB skipP (idValue idCol row) cache
  · rw [if_pos h]; exact Or.inr (Or.inl rfl)
  · rw [if_neg h]
    cases ru idx row with
    | ok url => exact Or.inl rfl
    | error e => exact Or.inr (Or.inr rfl)

theorem processLoop_row_indices (ru : Nat → Row → Except String String)
    (skipP : Bool) (idCol : Option String) (total : Nat) :
    ∀ (rows : List Row) (idx : Nat) (cache db : List String),
      (processLoop ru skipP idCol total idx rows cache db).results.map RowRes.row =
        List.range' idx rows.length := by
  intro rows
  induction rows with
  | nil => intro idx cache db; rfl
  | cons row rest ih =>
    intro idx cache db
    rw [processLoop]
    simp only [List.map_cons, List.length_cons, List.range'_succ]
    rw [processRow_row, ih]

theorem processLoop_length (ru : Nat → Row → Except String String)
    (skipP : Bool) (idCol : Option String) (total : Nat)
    (rows : List Row) (idx : Nat) (cache db : List String) :
    (processLoop ru skipP idCol total idx rows cache db).results.length =
      rows.length := by
  have h := congrArg List.length
    (processLoop_row_indices ru skipP idCol total rows idx cache db)
  simpa using h

theorem processLoop_statuses (ru : Nat → Row → Except String String)
    (skipP : Bool) (idCol : Option String) (total : Nat) :
    ∀ (rows : List Row) (idx : Nat) (cache db : List String),
      ∀ r ∈ (processLoop ru skipP idCol total idx rows cache db).results,
        r.status = "done" ∨ r.status = "skipped" ∨ r.status = "error" := by
  intro rows
  induction rows with
  | nil => intro idx cache db r hr; simp [processLoop] at hr
  | cons row rest ih =>
    intro idx cache db r hr
    rw [processLoop] at hr
    rcases List.mem_cons.mp hr with h | h
    · rw [h]; exact processRow_status ru skipP idCol idx row cache db
    · exact ih (idx + 1) _ _ r h

theorem processLoop_trace_length (ru : Nat → Row → Except String String)
    (skipP : Bool) (idCol : Option String) (total : Nat) :
    ∀ (rows : List Row) (idx : Nat) (cache db : List String),
      (processLoop ru skipP idCol total idx rows cache db).trace.length =
        rows.length := by
  intro rows
  induction rows with
  | nil => intro idx cache db; rfl
  | cons row rest ih =>
    intro idx cache db
    rw [processLoop]
    simp only [List.length_cons]
    rw [ih]

theorem processLoop_trace_get (ru : Nat → Row → Except String String)
    (skipP : Bool) (idCol : Option String) (total : Nat) :
    ∀ (rows : List Row) (i idx : Nat) (cache db : List String), i < rows.length →
      (processLoop ru skipP idCol total idx rows cache db).trace[i]? =
        some (pyPercent (idx + i + 1) total) := by
  intro rows
  induction rows with
  | nil => intro i idx cache db hi; simp at hi
  | cons row rest ih =>
    intro i idx cache db hi
    rw [processLoop]
    cases i with
    | zero => simp
    | succ j =>
      have hj : j < rest.length := by simpa using hi
      have := ih j (idx + 1) (processRow ru skipP idCol idx row cache db).cache
        (processRow ru skipP idCol idx row cache db).db hj
      simp only [List.getElem?_cons_succ]
      rw [this]
      congr 2
      omega

theorem getLastD_of_ne_nil {α : Type} {l : List α} (h : l ≠ []) (a b : α) :
    l.getLastD a = l.getLastD b := by
  cases l with
  | nil => exact absurd rfl h
  | cons x xs => rw [List.getLastD_cons, List.getLastD_cons]

theorem processLoop_trace_last (ru : Nat → Row → Except String String)
    (skipP : Bool) (idCol : Option String) (total : Nat) :
    ∀ (rows : List Row) (idx : Nat) (cache db : List String), rows ≠ [] →
      (processLoop ru skipP idCol total idx rows cache db).trace.getLastD 0 =
        pyPercent (idx + rows.length) total := by
  intro rows
  induction rows with
  | nil => intro idx cache db h; exact absurd rfl h
  | cons row rest ih =>
    intro idx cache db _
    rw [processLoop]
    cases hrest : rest with
    | nil =>
      simp [hrest, List.getLastD_cons, processLoop]
    | cons r2 rrest =>
      have hne : rest ≠ [] := by rw [hrest]; simp
      have hlen : (processLoop ru skipP idCol total (idx + 1) rest
          (processRow ru skipP idCol idx row cache db).cache
          (processRow ru skipP idCol idx row cache db).db).trace ≠ [] := by
        intro hcontra
        have := processLoop_trace_length ru skipP idCol total rest (idx + 1)
          (processRow ru skipP idCol idx row cache db).cache
          (processRow ru skipP idCol idx row cache db).db
        rw [hcontra] at this
        rw [hrest] at this
        simp at this
      rw [← hrest]
      simp only [List.getLastD_cons]
      rw [getLastD_of_ne_nil hlen _ 0, ih (idx + 1) _ _ hne]
      congr 1
      simp [List.length_cons]
      omega

theorem processLoop_get_characterization (ru : Nat → Row → Except String String)
    (skipP : Bool) (idCol : Option String) (total : Nat) :
    ∀ (rows : List Row) (idx : Nat) (cache db : List String) (j : Nat) (rowj : Row),
      rows[j]? = some rowj →
      (processLoop ru skipP idCol total idx rows cache db).results[j]? =
        some (processRow ru skipP idCol (idx + j) rowj
          (processLoop ru skipP idCol total idx (rows.take j) cache db).cache
          (processLoop ru skipP idCol total idx (rows.take j) cache db).db).res ∧
      (processLoop ru skipP idCol total idx rows cache db).rowsOut[j]? =
        some (processRow ru skipP idCol (idx + j) rowj
          (processLoop ru skipP idCol total idx (rows.take j) cache db).cache
          (processLoop ru skipP idCol total idx (rows.take j) cache db).db).rowOut := by
  intro rows
  induction rows with
  | nil => intro idx cache db j rowj h; simp at h
  | cons row rest ih =>
    intro idx cache db j rowj h
    cases j with
    | zero =>
      simp only [List.getElem?_cons_zero, Option.some_inj] at h
      subst h
      constructor
      · rw [processLoop]
        simp [processLoop]
      · rw [processLoop]
        simp [processLoop]
    | succ i =>
      simp only [List.getElem?_cons_succ] at h
      have hmain := ih (idx + 1)
        (processRow ru skipP idCol idx row cache db).cache
        (processRow ru skipP idCol idx row cache db).db i rowj h
      have harith : idx + 1 + i = idx + (i + 1) := by omega
      rw [harith] at hmain
      constructor
      · rw [processLoop]
        simp only [List.getElem?_cons_succ]
        rw [hmain.1]
        have htake : (row :: rest).take (i + 1) = row :: rest.take i := rfl
        rw [htake, processLoop]
      · rw [processLoop]
        simp only [List.getElem?_cons_succ]
        rw [hmain.2]
        have htake : (row :: rest).take (i + 1) = row :: rest.take i := rfl
        rw [htake, processLoop]

theorem processLoop_all_skip (ru : Nat → Row → Except String String)
    (skipP : Bool) (idCol : Option String) (total : Nat) :
    ∀ (rows : List Row) (idx : Nat) (cache db : List String),
      (∀ row ∈ rows, skipRowB skipP (idValue idCol row) cache = true) →
      (processLoop ru skipP idCol total idx rows cache db).results =
        (List.range' idx rows.length).map
          (fun i => ⟨i, "skipped", none, some "Identifier already processed"⟩) ∧
      (processLoop ru skipP idCol total idx rows cache db).cache = cache ∧
      (processLoop ru skipP idCol total idx rows cache db).db = db ∧
      (processLoop ru skipP idCol total idx rows cache db).calls = [] := by
  intro rows
  induction rows with
  | nil => intro idx cache db _; exact ⟨rfl, rfl, rfl, rfl⟩
  | cons row rest ih =>
    intro idx cache db hall
    have hskip : skipRowB skipP (idValue idCol row) cache = true :=
      hall row (by simp)
    have hstep : processRow ru skipP idCol idx row cache db =
        ⟨⟨idx, "skipped", none, some "Identifier already processed"⟩,
          rowSet row "mockup_url" (rowGet row "mockup_url"), cache, db, false⟩ := by
      rw [processRow, if_pos hskip]
    have hrest : ∀ r ∈ rest, skipRowB skipP (idValue idCol r) cache = true :=
      fun r hr => hall r (by simp [hr])
    have hih := ih (idx + 1) cache db hrest
    rw [processLoop, hstep]
    refine ⟨?_, hih.2.1, hih.2.2.1, ?_⟩
    · simp only [List.length_cons, List.range'_succ, List.map_cons]
      rw [hih.1]
    · simp only
      rw [hih.2.2.2]
      rfl

/-! ## Per-variable value resolution of `apply_variables` (main.py lines 595-608)

One variable of a template: its id, its `type` field (`"text"`, `"image"`,
or anything else), and its default value.  The geometry/style fields play no
role in value resolution.  `mapping` is the variable-id to column-name map;
cells are strings, so the source's `str(...)` is the identity. -/

structure VarSpec where
  id : String
  vtype : String
  defaultValue : String
deriving DecidableEq

/-- `mapping.get(var_id)` (`None` when absent). -/
def mapGet (mapping : List (String × String)) (k : String) : Option String :=
  (mapping.find? (fun p => p.1 == k)).map (fun p => p.2)

/-- What `apply_variables` does with one variable: which engine is invoked
and with which resolved value. -/
inductive VarAction
  | drawText (value : String)
  | fitImage (value : String)
  | noDraw
deriving DecidableEq

/-- The per-variable step of `apply_variables` (main.py lines 595-608):
`column = mapping.get(var_id)`; `value = str(row.get(column, "")).strip()`
when `column` is truthy, else `""`; empty value falls back to
`defaultValue`; inside the text branch only, an id of exactly `short_name`
with a still-empty value falls back to `shorten_company_name(str(row.get(column, "")))`
(reading through the raw `column`, even when it is the falsy `""`). -/
def resolve_dispatch (v : VarSpec) (row : Row) (mapping : List (String × String)) :
    VarAction :=
  let column := mapGet mapping v.id
  let rawCell := match column with
    | some c => rowGet row c
    | none => ""
  let value0 := match column with
    | some c => if c = "" then "" else pyStripStr (rowGet row c)
    | none => ""
  let value1 := if value0 = "" then v.defaultValue else value0
  if v.vtype = "text" then
    VarAction.drawText
      (if value1 = "" ∧ v.id = "short_name" then shorten_company_name rawCell else value1)
  else if v.vtype = "image" then VarAction.fitImage value1
  else VarAction.noDraw

/-- Claim C5's resolution, as stated: the mapped cell is read through the
mapping entry unconditionally, trimmed; empty falls back to the default;
then, for id `short_name` only and independent of the variable type, the
computed shortening of the mapped cell; text variables are then drawn, image
variables are fitted. -/
def resolve_dispatch_claim (v : VarSpec) (row : Row)
    (mapping : List (String × String)) : VarAction :=
  let cell := match mapGet mapping v.id with
    | some c => rowGet row c
    | none => ""
  let value0 := pyStripStr cell
  let value1 := if value0 = "" then v.defaultValue else value0
  let value2 := if value1 = "" ∧ v.id = "short_name" then shorten_company_name cell else value1
  if v.vtype = "text" then VarAction.drawText value2
  else if v.vtype = "image" then VarAction.fitImage value2
  else VarAction.noDraw

/-- The amended resolution: a mapping entry naming the empty-string column is
ignored for the main cell lookup (Python's falsy test on the column name),
while the `short_name` fallback reads through the raw column name; and that
fallback only exists inside the text branch. -/
def resolve_dispatch_amended (v : VarSpec) (row : Row)
    (mapping : List (String × String)) : VarAction :=
  let column := mapGet mapping v.id
  let lookupCell := match column with
    | some c => if c = "" then "" else rowGet row c
    | none => ""
  let fallbackCell := match column with
    | some c => rowGet row c
    | none => ""
  let value0 := pyStripStr lookupCell
  let value1 := if value0 = "" then v.defaultValue else value0
  if v.vtype = "text" then
    VarAction.drawText
      (if value1 = "" ∧ v.id = "short_name" then shorten_company_name fallbackCell else value1)
  else if v.vtype = "image" then VarAction.fitImage value1
  else VarAction.noDraw

theorem pyStripStr_empty : pyStripStr "" = "" := rfl

/-! ## Claim theorems -/

/-- C2, counterexample: the claim says the last token is stripped of
*trailing* `.`/`,` before the suffix test, but Python `strip(",.")` strips
both ends.  On `"Acme .inc"` the code strips the leading dot, recognises
`inc` and drops the token, giving `"Acme"`; the claimed algorithm keeps
`.inc` and gives `"Acme Inc"`. -/
theorem C2_counterexample :
    shorten_company_name "Acme .inc" = "Acme" ∧
    shorten_spec_trailing "Acme .inc" = "Acme Inc" ∧
    shorten_company_name "Acme .inc" ≠ shorten_spec_trailing "Acme .inc" := by
  refine ⟨by decide, by decide, by decide⟩

/-- C2 (amended): `shorten_company_name` implements exactly: trim the input;
if the last whitespace-delimited token, lowercased and stripped of leading
and trailing `.` or `,`, is in the legal-suffix set, drop that token; remove
all characters outside `[A-Za-z0-9 ]`; title-case each remaining word and
join with single spaces; and it maps `"Acme Roofing, Inc."` to
`"Acme Roofing"`, `"bob's plumbing co"` to `"Bobs Plumbing"`, and
`"JUST ONE WORD"` to `"Just One Word"`. -/
theorem C2_theorem :
    (∀ s : String, shorten_company_name s = shorten_spec_both s) ∧
    shorten_company_name "Acme Roofing, Inc." = "Acme Roofing" ∧
    shorten_company_name "bob\x27s plumbing co" = "Bobs Plumbing" ∧
    shorten_company_name "JUST ONE WORD" = "Just One Word" := by
  refine ⟨?_, by decide, by decide, by decide⟩
  intro s
  unfold shorten_company_name shorten_spec_both
  rw [splitWS_trimWS]

/-- C3: every line the greedy word-wrap produces either measures at most the
box width under the font metric, or is a single word of the input (an
overflowing word is placed alone without splitting). -/
theorem C3_theorem (widthF : List Char → Nat) (text : List Char) (maxW : Nat)
    (line : List Char) (h : line ∈ wrap_text_to_box widthF text maxW) :
    widthF line ≤ maxW ∨ line ∈ splitWS text :=
  wrapWords_mem_invariant widthF maxW (splitWS text) (splitWS text) []
    (fun _ hw => hw) (Or.inl rfl) line h

/-- C3, witness at a concrete wrap. -/
theorem C3_witness :
    List.length ['a', 'b'] ≤ 2 ∨ ['a', 'b'] ∈ splitWS "ab cd".data :=
  C3_theorem List.length "ab cd".data 2 ['a', 'b'] (by decide)

/-- C10: word-wrapping preserves the words exactly — re-splitting every
produced line and concatenating in line order gives the whitespace-split
word sequence of the input. -/
theorem C10_theorem (widthF : List Char → Nat) (text : List Char) (maxW : Nat) :
    ((wrap_text_to_box widthF text maxW).map splitWS).flatten = splitWS text := by
  have h := wrapWords_join widthF maxW (splitWS text) []
    (splitWS_words_good text) (by intro w hw; simp at hw)
  simpa [wrap_text_to_box, joinSp] using h

/-- C6, counterexample: the claim says the stacked line height is the
rendered height of `"Ay"`, but the code takes the maximum of the per-line
measured heights; with the character-count metric, the single wrapped line
`"Hello"` measures 5 while `"Ay"` measures 2. -/
theorem C6_counterexample :
    draw_text_block_line_height List.length List.length "Hello".data 100 ≠
      List.length "Ay".data := by decide

/-- C6 (amended): the line height used to stack lines is the maximum of the
per-line measured heights (an empty line is measured as `"Ay"`); the height
of `"Ay"` itself is used only when there are no lines; and this single value
is used uniformly — consecutive line y-positions always differ by exactly
it. -/
theorem C6_theorem (widthF heightF : List Char → Nat) (text : List Char) (w : Nat) :
    (wrap_text_to_box widthF text w ≠ [] →
      draw_text_block_line_height widthF heightF text w ∈
        measuredHeights heightF (wrap_text_to_box widthF text w) ∧
      ∀ a ∈ measuredHeights heightF (wrap_text_to_box widthF text w),
        a ≤ draw_text_block_line_height widthF heightF text w) ∧
    (wrap_text_to_box widthF text w = [] →
      draw_text_block_line_height widthF heightF text w = heightF "Ay".data) ∧
    (∀ startY i,
      draw_line_y startY (draw_text_block_line_height widthF heightF text w) (i + 1) =
        draw_line_y startY (draw_text_block_line_height widthF heightF text w) i +
          draw_text_block_line_height widthF heightF text w) := by
  refine ⟨?_, ?_, ?_⟩
  · intro hne
    have hmne : measuredHeights heightF (wrap_text_to_box widthF text w) ≠ [] := by
      rw [measuredHeights]
      simpa using hne
    have hE : (measuredHeights heightF (wrap_text_to_box widthF text w)).isEmpty = false := by
      cases hcase : measuredHeights heightF (wrap_text_to_box widthF text w) with
      | nil => exact absurd hcase hmne
      | cons a as => rfl
    have hval : draw_text_block_line_height widthF heightF text w =
        pyMaxList (measuredHeights heightF (wrap_text_to_box widthF text w)) := by
      rw [draw_text_block_line_height, text_line_height, hE]
      rfl
    rw [hval]
    exact ⟨pyMaxList_mem hmne, fun a ha => pyMaxList_ge ha⟩
  · intro hnil
    rw [draw_text_block_line_height, text_line_height, hnil]
    rfl
  · intro startY i
    rw [draw_line_y, draw_line_y]
    ring

/-- C6, witness at a concrete text block. -/
theorem C6_witness :
    draw_text_block_line_height List.length List.length "ab".data 10 ∈
      measuredHeights List.length (wrap_text_to_box List.length "ab".data 10) :=
  ((C6_theorem List.length List.length "ab".data 10).1 (by decide)).1

/-- C7: `contain` fit never exceeds the original size nor the box on either
axis; `cover` fit is at least the box size on at least one axis; and in
every fit mode the placement is centered — on both axes the two margins
differ by at most one pixel. -/
theorem C7_theorem (origW origH x y w h : Nat) (hW : 0 < origW) (hH : 0 < origH)
    (hw : 0 < w) (hh : 0 < h) :
    ((paste_image_size origW origH w h "contain").1 ≤ origW ∧
     (paste_image_size origW origH w h "contain").2 ≤ origH ∧
     (paste_image_size origW origH w h "contain").1 ≤ w ∧
     (paste_image_size origW origH w h "contain").2 ≤ h) ∧
    (w ≤ (paste_image_size origW origH w h "cover").1 ∨
     h ≤ (paste_image_size origW origH w h "cover").2) ∧
    (∀ fit : String,
      ((paste_image_placement origW origH x y w h fit).2.1 - x ≤
          x + w - ((paste_image_placement origW origH x y w h fit).2.1 +
            (paste_image_placement origW origH x y w h fit).1.1) + 1 ∧
        x + w - ((paste_image_placement origW origH x y w h fit).2.1 +
            (paste_image_placement origW origH x y w h fit).1.1) ≤
          (paste_image_placement origW origH x y w h fit).2.1 - x + 1) ∧
      ((paste_image_placement origW origH x y w h fit).2.2 - y ≤
          y + h - ((paste_image_placement origW origH x y w h fit).2.2 +
            (paste_image_placement origW origH x y w h fit).1.2) + 1 ∧
        y + h - ((paste_image_placement origW origH x y w h fit).2.2 +
            (paste_image_placement origW origH x y w h fit).1.2) ≤
          (paste_image_placement origW origH x y w h fit).2.2 - y + 1)) := by
  refine ⟨?_, ?_, ?_⟩
  · have : paste_image_size origW origH w h "contain" =
        thumbnail_fit origW origH w h := by
      rw [paste_image_size, if_pos rfl]
    rw [this]
    exact thumbnail_fit_le origW origH w h hW hH hw hh
  · have : paste_image_size origW origH w h "cover" =
        cover_fit origW origH w h := by
      rw [paste_image_size, if_neg (by decide)]
    rw [this]
    exact cover_fit_ge origW origH w h
  · intro fit
    exact ⟨paste_offset_centered x w (paste_image_size origW origH w h fit).1,
      paste_offset_centered y h (paste_image_size origW origH w h fit).2⟩

/-- C7, witness at a concrete image and box. -/
theorem C7_witness :
    (paste_image_size 3 2 4 4 "contain").1 ≤ 3 :=
  (C7_theorem 3 2 0 0 4 4 (by decide) (by decide) (by decide) (by decide)).1.1

/-- C9: the job-status read returns the maximum of the stored progress and a
value recomputed from the count of recorded results over the total row
count; the reader never observes less than the stored value, and the stored
value is only ever raised (to the recomputation) — never lowered. -/
theorem C9_theorem (stored : Nat) (results : List RowRes) (total : Nat) :
    (job_status_read stored results total).2 =
      Nat.max stored (if total = 0 then stored else pyPercent results.length total) ∧
    stored ≤ (job_status_read stored results total).2 ∧
    (job_status_read stored results total).1 =
      Nat.max stored (if total = 0 then stored else pyPercent results.length total) := by
  have hdl : (results.filter (fun r =>
      r.status == "done" || r.status == "skipped" || r.status == "error")).length ≤
      results.length := List.length_filter_le _ _
  have hmax : Nat.max results.length (results.filter (fun r =>
      r.status == "done" || r.status == "skipped" || r.status == "error")).length =
      results.length := Nat.max_eq_left hdl
  rw [job_status_read]
  simp only [hmax]
  set derived := if total = 0 then stored else pyPercent results.length total with hd
  have hsto : (if stored < derived then derived else stored) = Nat.max stored derived := by
    by_cases hlt : stored < derived
    · rw [if_pos hlt]
      exact (Nat.max_eq_right (Nat.le_of_lt hlt)).symm
    · rw [if_neg hlt]
      exact (Nat.max_eq_left (Nat.le_of_not_lt hlt)).symm
  rw [hsto]
  refine ⟨?_, ?_, rfl⟩
  · exact (Nat.max_assoc stored derived derived).trans
      (congrArg (Nat.max stored) (Nat.max_self derived))
  · exact le_trans (Nat.le_max_left stored derived) (Nat.le_max_left _ _)

/-- C1, counterexample: with 50 rows, after row index 28 (the 29th row) the
stored progress is `int((29/50)*100)`, which binary64 arithmetic evaluates
to 57, while `floor(((28+1)/50)*100)` read as exact arithmetic is 58 — the
claimed per-row progress formula does not hold for the code. -/
theorem C1_counterexample :
    (process_job (fun _ _ => Except.error "x") (List.replicate 50 ([] : Row))
        false none []).trace[28]? = some 57 ∧
    (28 + 1) * 100 / 50 = 58 := by
  refine ⟨by decide, by decide⟩

/-- C1 (amended): for every non-empty row list, after `process_job` runs to
completion the stored progress is exactly 100, the results list has one
entry per row in row order, every result status is `done`, `skipped` or
`error`, the job status is `done`, and after each row `i` the stored
progress equals `int(((i+1)/N)*100)` evaluated in binary64 floating point
(`pyPercent`) — which equals the exact `floor(((i+1)*100)/N)` except at
float-rounding edge cases such as `i = 28, N = 50`. -/
theorem C1_theorem (ru : Nat → Row → Except String String) (rows : List Row)
    (skipP : Bool) (idCol : Option String) (dbIds : List String)
    (hne : rows ≠ []) :
    (process_job ru rows skipP idCol dbIds).progress = 100 ∧
    (process_job ru rows skipP idCol dbIds).results.length = rows.length ∧
    (process_job ru rows skipP idCol dbIds).results.map RowRes.row =
      List.range rows.length ∧
    (∀ r ∈ (process_job ru rows skipP idCol dbIds).results,
      r.status = "done" ∨ r.status = "skipped" ∨ r.status = "error") ∧
    (process_job ru rows skipP idCol dbIds).status = "done" ∧
    (∀ i, i < rows.length →
      (process_job ru rows skipP idCol dbIds).trace[i]? =
        some (pyPercent (i + 1) rows.length)) := by
  have hN : rows.length ≠ 0 := by
    cases rows with
    | nil => exact absurd rfl hne
    | cons r rs => simp
  refine ⟨?_, ?_, ?_, ?_, rfl, ?_⟩
  · show (processLoop ru skipP idCol rows.length 0 rows
      (initialCache skipP idCol dbIds) dbIds).trace.getLastD 0 = 100
    rw [processLoop_trace_last ru skipP idCol rows.length rows 0 _ _ hne,
      Nat.zero_add]
    exact pyPercent_self rows.length hN
  · exact processLoop_length ru skipP idCol rows.length rows 0 _ _
  · show (processLoop ru skipP idCol rows.length 0 rows
      (initialCache skipP idCol dbIds) dbIds).results.map RowRes.row =
      List.range rows.length
    rw [processLoop_row_indices ru skipP idCol rows.length rows 0 _ _,
      List.range_eq_range']
  · exact processLoop_statuses ru skipP idCol rows.length rows 0 _ _
  · intro i hi
    show (processLoop ru skipP idCol rows.length 0 rows
      (initialCache skipP idCol dbIds) dbIds).trace[i]? =
      some (pyPercent (i + 1) rows.length)
    rw [processLoop_trace_get ru skipP idCol rows.length rows i 0 _ _ hi,
      Nat.zero_add]

/-- C1, witness at a concrete one-row job. -/
theorem C1_witness :
    (process_job (fun _ _ => Except.error "x") [[]] false none []).progress = 100 :=
  (C1_theorem (fun _ _ => Except.error "x") [[]] false none [] (by decide)).1

/-- C4, counterexample: an exception whose `str` is empty (possible for any
`Exception` raised inside render or upload) is recorded as that row's error
message, so the message is not necessarily non-empty; the next row is still
processed normally. -/
theorem C4_counterexample :
    (process_job (fun i _ => if i = 0 then Except.error "" else Except.ok "u")
      [[], []] false none []).results[0]? =
      some ⟨0, "error", none, some ""⟩ ∧
    (process_job (fun i _ => if i = 0 then Except.error "" else Except.ok "u")
      [[], []] false none []).results[1]? =
      some ⟨1, "done", some "u", none⟩ := by
  refine ⟨by decide, by decide⟩

/-- C4 (amended): a non-skipped row whose render or upload raises is
recorded with status `error` and the exception's message (which may be
empty), its result URL stays `none` and the row's `mockup_url` is set to the
empty string; the exception never escapes the loop — every row still gets
exactly one result, in row order, each equal to the normal per-row
processing at the state reached before it. -/
theorem C4_theorem (ru : Nat → Row → Except String String) (rows : List Row)
    (skipP : Bool) (idCol : Option String) (dbIds : List String)
    (j : Nat) (rowj : Row) (msg : String)
    (hrow : rows[j]? = some rowj)
    (hns : skipRowB skipP (idValue idCol rowj)
      (jobStateBefore ru rows skipP idCol dbIds j).1 = false)
    (herr : ru j rowj = Except.error msg) :
    (process_job ru rows skipP idCol dbIds).results[j]? =
      some ⟨j, "error", none, some msg⟩ ∧
    ((process_job ru rows skipP idCol dbIds).rowsOut[j]?).map
      (fun r => rowGet r "mockup_url") = some "" ∧
    (process_job ru rows skipP idCol dbIds).results.map RowRes.row =
      List.range rows.length ∧
    (process_job ru rows skipP idCol dbIds).status = "done" ∧
    (∀ k rowk, rows[k]? = some rowk →
      (process_job ru rows skipP idCol dbIds).results[k]? =
        some (processRow ru skipP idCol k rowk
          (jobStateBefore ru rows skipP idCol dbIds k).1
          (jobStateBefore ru rows skipP idCol dbIds k).2).res) := by
  have hchar := processLoop_get_characterization ru skipP idCol rows.length rows 0
    (initialCache skipP idCol dbIds) dbIds j rowj hrow
  simp only [Nat.zero_add] at hchar
  have hstep : processRow ru skipP idCol j rowj
      (jobStateBefore ru rows skipP idCol dbIds j).1
      (jobStateBefore ru rows skipP idCol dbIds j).2 =
      ⟨⟨j, "error", none, some msg⟩, rowSet rowj "mockup_url" "",
        (jobStateBefore ru rows skipP idCol dbIds j).1,
        (jobStateBefore ru rows skipP idCol dbIds j).2, true⟩ := by
    rw [processRow, if_neg (by rw [hns]; exact Bool.false_ne_true), herr]
  refine ⟨?_, ?_, ?_, rfl, ?_⟩
  · have h1 : (process_job ru rows skipP idCol dbIds).results[j]? =
        some (processRow ru skipP idCol j rowj
          (jobStateBefore ru rows skipP idCol dbIds j).1
          (jobStateBefore ru rows skipP idCol dbIds j).2).res := hchar.1
    rw [h1, hstep]
  · have h2 : (process_job ru rows skipP idCol dbIds).rowsOut[j]? =
        some (processRow ru skipP idCol j rowj
          (jobStateBefore ru rows skipP idCol dbIds j).1
          (jobStateBefore ru rows skipP idCol dbIds j).2).rowOut := hchar.2
    rw [h2, hstep]
    simp [rowGet_rowSet]
  · show (processLoop ru skipP idCol rows.length 0 rows
      (initialCache skipP idCol dbIds) dbIds).results.map RowRes.row =
      List.range rows.length
    rw [processLoop_row_indices ru skipP idCol rows.length rows 0 _ _,
      List.range_eq_range']
  · intro k rowk hk
    have h3 := processLoop_get_characterization ru skipP idCol rows.length rows 0
      (initialCache skipP idCol dbIds) dbIds k rowk hk
    simp only [Nat.zero_add] at h3
    exact h3.1

/-- C4, witness at a concrete two-row job with an erroring first row. -/
theorem C4_witness :
    (process_job (fun i _ => if i = 0 then Except.error "boom" else Except.ok "u")
      [[], []] false none []).results[0]? =
      some ⟨0, "error", none, some "boom"⟩ :=
  (C4_theorem (fun i _ => if i = 0 then Except.error "boom" else Except.ok "u")
    [[], []] false none [] 0 [] "boom" (by decide) (by decide) rfl).1

/-- C5, counterexample: a mapping entry naming the empty-string column is
Python-falsy, so the code ignores it for the cell lookup and falls back to
the default, while the claimed fixed order reads the mapped cell; with a row
that has an empty-named column holding `"Acme"`, the code draws `""` and the
claimed resolution draws `"Acme"`. -/
theorem C5_counterexample :
    resolve_dispatch ⟨"full_name", "text", ""⟩ [("", "Acme")] [("full_name", "")] =
      VarAction.drawText "" ∧
    resolve_dispatch_claim ⟨"full_name", "text", ""⟩ [("", "Acme")] [("full_name", "")] =
      VarAction.drawText "Acme" ∧
    resolve_dispatch ⟨"full_name", "text", ""⟩ [("", "Acme")] [("full_name", "")] ≠
      resolve_dispatch_claim ⟨"full_name", "text", ""⟩ [("", "Acme")] [("full_name", "")] := by
  refine ⟨by decide, by decide, by decide⟩

/-- C5 (amended): the renderer resolves each variable in this fixed order —
the mapped-column cell of the row, trimmed, if it is non-empty, where a
missing mapping entry or one naming the empty-string column counts as no
cell; otherwise the variable's `defaultValue`; otherwise, for the variable
whose id is exactly `short_name`, only within the text drawing path, the
computed company-name shortening of the cell read through the raw mapped
column name; text variables are drawn via the text layout path and image
variables via the image fit path with the resolved value. -/
theorem C5_theorem (v : VarSpec) (row : Row) (mapping : List (String × String)) :
    resolve_dispatch v row mapping = resolve_dispatch_amended v row mapping := by
  unfold resolve_dispatch resolve_dispatch_amended
  cases hcol : mapGet mapping v.id with
  | none => rfl
  | some c =>
    by_cases hc : c = ""
    · subst hc
      simp [pyStripStr_empty]
    · simp [hc]

/-- C5, witness: not needed (no hypotheses), kept as the theorem applied at a
concrete input. -/
theorem C5_witness :
    resolve_dispatch ⟨"short_name", "text", ""⟩ [("col", " Acme Inc ")]
        [("short_name", "col")] =
      resolve_dispatch_amended ⟨"short_name", "text", ""⟩ [("col", " Acme Inc ")]
        [("short_name", "col")] :=
  C5_theorem ⟨"short_name", "text", ""⟩ [("col", " Acme Inc ")] [("short_name", "col")]

/-- C8: when skip-processed is on, an identifier column is set, and every
row's stripped identifier is in the processed-identifier cache loaded at job
start, every row is marked `skipped` with a `none` URL, no render or upload
is invoked for any row, and no identifier is added to the cache or the
`ProcessedCompany` table. -/
theorem C8_theorem (ru : Nat → Row → Except String String) (rows : List Row)
    (c : String) (dbIds : List String) (hc : c ≠ "")
    (hall : ∀ row ∈ rows, (initialCache true (some c) dbIds).contains
      (pyStripStr (rowGet row c)) = true) :
    (process_job ru rows true (some c) dbIds).results =
      (List.range rows.length).map
        (fun i => ⟨i, "skipped", none, some "Identifier already processed"⟩) ∧
    (∀ r ∈ (process_job ru rows true (some c) dbIds).results, r.url = none) ∧
    (process_job ru rows true (some c) dbIds).calls = [] ∧
    (process_job ru rows true (some c) dbIds).db = dbIds ∧
    (process_job ru rows true (some c) dbIds).cache =
      initialCache true (some c) dbIds := by
  have hskipall : ∀ row ∈ rows, skipRowB true (idValue (some c) row)
      (initialCache true (some c) dbIds) = true := by
    intro row hrow
    have hcontains := hall row hrow
    have hvne : (pyStripStr (rowGet row c) != "") = true := by
      have hmem : pyStripStr (rowGet row c) ∈ initialCache true (some c) dbIds := by
        simpa using hcontains
      rw [initialCache] at hmem
      have hact : (true && idColActive (some c)) = true := by
        have : idColActive (some c) = true := by
          rw [idColActive]
          simpa using hc
        rw [this]
        rfl
      rw [if_pos hact] at hmem
      exact (List.mem_filter.mp hmem).2
    have hid : idValue (some c) row = some (pyStripStr (rowGet row c)) := by
      rw [idValue, if_neg hc]
    rw [hid]
    simp only [skipRowB]
    rw [hvne, hcontains]
    rfl
  have hloop := processLoop_all_skip ru true (some c) rows.length rows 0
    (initialCache true (some c) dbIds) dbIds hskipall
  refine ⟨?_, ?_, ?_, ?_, ?_⟩
  · show (processLoop ru true (some c) rows.length 0 rows
      (initialCache true (some c) dbIds) dbIds).results = _
    rw [hloop.1, List.range_eq_range']
  · intro r hr
    have : r ∈ (processLoop ru true (some c) rows.length 0 rows
        (initialCache true (some c) dbIds) dbIds).results := hr
    rw [hloop.1] at this
    rcases List.mem_map.mp this with ⟨i, _, hi⟩
    rw [← hi]
  · exact hloop.2.2.2
  · exact hloop.2.2.1
  · exact hloop.2.1

/-- C8, witness at a concrete one-row already-processed job. -/
theorem C8_witness :
    (process_job (fun _ _ => Except.ok "u") [[("id", "a")]] true (some "id")
      ["a"]).calls = [] :=
  (C8_theorem (fun _ _ => Except.ok "u") [[("id", "a")]] "id" ["a"]
    (by decide) (by decide)).2.2.1
